import Mathlib

/-!
Verification of the range-resolution and wildcard-matching logic of
`src/utils.rs` (dufs). Strings are modelled as their character lists;
`u64` values are `Nat` with the `u64` bound made explicit where it
matters. Rust's `u64` subtraction is modelled as a checked operation:
an underflow is an arithmetic-overflow panic, represented by
`Except.error ()` (in release builds the value instead wraps modulo
`2^64`; either way the spec's invariant is broken at that point, and
the theorems note the wrapped value where relevant).
-/

namespace Dufs

/-- Model of Rust `str::split_once(sep)` on character lists: splits at the
first occurrence of `sep`, returning `none` when `sep` does not occur. -/
def splitOnce (sep : Char) : List Char → Option (List Char × List Char)
  | [] => none
  | c :: cs =>
    if c = sep then some ([], cs)
    else (splitOnce sep cs).map (fun p => (c :: p.1, p.2))

/-- Model of Rust `str::contains(c)` for a single character. -/
def containsChar (c : Char) (l : List Char) : Bool :=
  l.any (fun x => x = c)

/-- `true` exactly on the ASCII digits `0`-`9`. -/
def isDigitChar (c : Char) : Bool :=
  decide ('0' ≤ c ∧ c ≤ '9')

/-- Numeric value of a digit list, most significant first. -/
def digitsVal (l : List Char) : Nat :=
  l.foldl (fun a c => a * 10 + (c.toNat - 48)) 0

/-- Model of Rust `str::parse::<u64>()`: an optional leading `+`, then one
or more ASCII digits, value below `2^64`; anything else is a parse error. -/
def parseU64 (s : List Char) : Option Nat :=
  let digits := match s with
    | '+' :: rest => rest
    | _ => s
  if digits = [] then none
  else if digits.all isDigitChar then
    if digitsVal digits < 2 ^ 64 then some (digitsVal digits) else none
  else none

/-- Rust `u64` subtraction with overflow checks: underflow is a panic,
modelled as `Except.error ()`. -/
def checkedSub (a b : Nat) : Except Unit Nat :=
  if b ≤ a then Except.ok (a - b) else Except.error ()

/-- Embedding of `parse_range` from `src/utils.rs` on character lists.
`Except.error ()` marks the arithmetic-overflow panic of a checked build;
`Except.ok none` is Rust's `None`, `Except.ok (some (s, e))` its
`Some((s, e))`. -/
def parseRangeL (range : List Char) (size : Nat) : Except Unit (Option (Nat × Nat)) :=
  match splitOnce '=' range with
  | none => Except.ok none
  | some (unit, rangeSpec) =>
    if unit ≠ "bytes".data ∨ containsChar ',' rangeSpec then Except.ok none
    else
      match splitOnce '-' rangeSpec with
      | none => Except.ok none
      | some (startStr, endStr) =>
        if startStr = [] then
          match parseU64 endStr with
          | none => Except.ok none
          | some offset =>
            if offset ≤ size then
              match checkedSub size offset, checkedSub size 1 with
              | Except.ok a, Except.ok b => Except.ok (some (a, b))
              | Except.error e, _ => Except.error e
              | _, Except.error e => Except.error e
            else Except.ok none
        else
          match parseU64 startStr with
          | none => Except.ok none
          | some start =>
            if start < size then
              if endStr = [] then
                match checkedSub size 1 with
                | Except.ok b => Except.ok (some (start, b))
                | Except.error e => Except.error e
              else
                match parseU64 endStr with
                | none => Except.ok none
                | some e =>
                  if e < size then Except.ok (some (start, e)) else Except.ok none
            else Except.ok none

/-- `parse_range` on Lean strings, as in `src/utils.rs`. -/
def parse_range (range : String) (size : Nat) : Except Unit (Option (Nat × Nat)) :=
  parseRangeL range.data size

/-- Modelled from the spec: the wildcard matching engine behind `glob`
(the external `glob` crate's `Pattern`, whose source is not under `src/`).
Spec section 4.2: anchored whole-string match where a literal character must
equal the character at the corresponding position, `?` matches exactly one
arbitrary character, and `*` matches zero or more arbitrary characters;
no character classes and no escapes.
`starLoop m ts` holds when `m` accepts some suffix of `ts`: it realises
the zero-or-more semantics of `*`. -/
def starLoop (m : List Char → Bool) : List Char → Bool
  | [] => m []
  | t :: ts => m (t :: ts) || starLoop m ts

/-- The anchored wildcard matcher of spec section 4.2 (see `starLoop`). -/
def globMatch : List Char → List Char → Bool
  | [], ts => ts.isEmpty
  | p :: ps, ts =>
    if p = '*' then starLoop (fun l => globMatch ps l) ts
    else
      match ts with
      | [] => false
      | t :: ts2 => (p == '?' || p == t) && globMatch ps ts2

/-- Modelled from the spec: `glob` from `src/utils.rs`, with the external
matching engine replaced by the spec's section-4.2 semantics. In the
spec's pattern syntax every pattern is well formed, so the compile-failure
branch of the source (malformed pattern yields `false`) is never taken. -/
def glob (pattern target : String) : Bool :=
  globMatch pattern.data target.data

/-! ### Percent-encoding layer (for `encode_uri` / `decode_uri`)

The bodies of `encode_uri` and `decode_uri` are in `src/utils.rs`, but the
work is done by the external `urlencoding` and `percent_encoding` crates
and Rust's standard UTF-8 validation, none of which are under `src/`;
those parts are modelled from the spec's description of the helpers as
percent-encoding and percent-decoding of URI path segments, together with
the crates' documented behaviour (RFC 3986 percent-encoding of UTF-8
bytes with the unreserved set kept literal, and lossy-free strict
decoding). -/

/-- Modelled from the spec: standard UTF-8 encoding of one scalar value
(Rust `str` bytes; `str::as_bytes` is not under `src/`). -/
def utf8EncodeChar (c : Char) : List Nat :=
  if c.toNat < 0x80 then [c.toNat]
  else if c.toNat < 0x800 then
    [0xC0 + c.toNat / 0x40, 0x80 + c.toNat % 0x40]
  else if c.toNat < 0x10000 then
    [0xE0 + c.toNat / 0x1000, 0x80 + (c.toNat / 0x40) % 0x40,
     0x80 + c.toNat % 0x40]
  else
    [0xF0 + c.toNat / 0x40000, 0x80 + (c.toNat / 0x1000) % 0x40,
     0x80 + (c.toNat / 0x40) % 0x40, 0x80 + c.toNat % 0x40]

/-- Modelled from the spec: the UTF-8 byte sequence of a string. -/
def utf8Encode : List Char → List Nat
  | [] => []
  | c :: cs => utf8EncodeChar c ++ utf8Encode cs

/-- Scalar value of a two-byte UTF-8 sequence. -/
def utf8Val2 (b0 b1 : Nat) : Nat :=
  (b0 - 0xC0) * 0x40 + (b1 - 0x80)

/-- Scalar value of a three-byte UTF-8 sequence. -/
def utf8Val3 (b0 b1 b2 : Nat) : Nat :=
  (b0 - 0xE0) * 0x1000 + (b1 - 0x80) * 0x40 + (b2 - 0x80)

/-- Scalar value of a four-byte UTF-8 sequence. -/
def utf8Val4 (b0 b1 b2 b3 : Nat) : Nat :=
  (b0 - 0xF0) * 0x40000 + (b1 - 0x80) * 0x1000 + (b2 - 0x80) * 0x40 + (b3 - 0x80)

/-- A UTF-8 continuation byte. -/
def isCont (b : Nat) : Prop :=
  0x80 ≤ b ∧ b ≤ 0xBF

instance (b : Nat) : Decidable (isCont b) :=
  inferInstanceAs (Decidable (_ ∧ _))

/-- A surrogate scalar value, invalid in UTF-8. -/
def isSurrogate (n : Nat) : Prop :=
  0xD800 ≤ n ∧ n ≤ 0xDFFF

instance (n : Nat) : Decidable (isSurrogate n) :=
  inferInstanceAs (Decidable (_ ∧ _))

/-- Modelled from the spec: one step of strict UTF-8 decoding as in
Rust's `str::from_utf8` (not under `src/`): given the first byte and the
remaining bytes, the decoded character and the rest, rejecting overlong
forms, surrogates, out-of-range scalars and truncated sequences. -/
def utf8DecodeOne (b0 : Nat) (bs : List Nat) : Option (Char × List Nat) :=
  if b0 < 0x80 then some (Char.ofNat b0, bs)
  else if 0xC2 ≤ b0 ∧ b0 ≤ 0xDF then
    match bs with
    | b1 :: bs2 =>
      if isCont b1 then some (Char.ofNat (utf8Val2 b0 b1), bs2) else none
    | [] => none
  else if 0xE0 ≤ b0 ∧ b0 ≤ 0xEF then
    match bs with
    | b1 :: b2 :: bs2 =>
      if isCont b1 ∧ isCont b2 ∧ 0x800 ≤ utf8Val3 b0 b1 b2 ∧
          ¬isSurrogate (utf8Val3 b0 b1 b2) then
        some (Char.ofNat (utf8Val3 b0 b1 b2), bs2)
      else none
    | _ => none
  else if 0xF0 ≤ b0 ∧ b0 ≤ 0xF4 then
    match bs with
    | b1 :: b2 :: b3 :: bs2 =>
      if isCont b1 ∧ isCont b2 ∧ isCont b3 ∧
          0x10000 ≤ utf8Val4 b0 b1 b2 b3 ∧ utf8Val4 b0 b1 b2 b3 ≤ 0x10FFFF then
        some (Char.ofNat (utf8Val4 b0 b1 b2 b3), bs2)
      else none
    | _ => none
  else none

/-- Modelled from the spec: strict UTF-8 validation and decoding of a
whole byte sequence (see `utf8DecodeOne`). -/
def utf8Decode : List Nat → Option (List Char)
  | [] => some []
  | b0 :: bs =>
    match h : utf8DecodeOne b0 bs with
    | some (c, bs2) => (utf8Decode bs2).map (fun cs => c :: cs)
    | none => none
termination_by l => l.length
decreasing_by
  unfold utf8DecodeOne at h
  repeat' split at h
  all_goals simp at h
  all_goals obtain ⟨h1, h2⟩ := h
  all_goals subst h2
  all_goals simp only [List.length_cons]
  all_goals omega

/-- Modelled from the spec: the RFC 3986 unreserved byte set kept literal
by the external `urlencoding` crate (ASCII letters, digits, `-` `.` `_`
`~`). -/
def isUnreservedByte (b : Nat) : Bool :=
  decide ((0x41 ≤ b ∧ b ≤ 0x5A) ∨ (0x61 ≤ b ∧ b ≤ 0x7A) ∨
    (0x30 ≤ b ∧ b ≤ 0x39) ∨ b = 0x2D ∨ b = 0x2E ∨ b = 0x5F ∨ b = 0x7E)

/-- Upper-case hexadecimal digit character for a value below 16. -/
def hexUpper (n : Nat) : Char :=
  if n < 10 then Char.ofNat (48 + n) else Char.ofNat (55 + n)

/-- Modelled from the spec: percent-encoding of a byte sequence as done
by `urlencoding::encode` (not under `src/`): unreserved bytes stay
literal, every other byte becomes `%` plus two upper-case hex digits. -/
def percentEncodeBytes : List Nat → List Char
  | [] => []
  | b :: bs =>
    (if isUnreservedByte b then [Char.ofNat b]
     else ['%', hexUpper (b / 16), hexUpper (b % 16)]) ++ percentEncodeBytes bs

/-- Modelled from the spec: `urlencoding::encode` on one path segment:
percent-encoding of the segment's UTF-8 bytes. -/
def urlencode (s : List Char) : List Char :=
  percentEncodeBytes (utf8Encode s)

/-- Model of Rust `str::split(sep)` on character lists (the empty string
yields one empty segment, as in Rust). -/
def splitAllChar (sep : Char) : List Char → List (List Char)
  | [] => [[]]
  | c :: cs =>
    if c = sep then [] :: splitAllChar sep cs
    else
      match splitAllChar sep cs with
      | [] => [[c]]
      | a :: rest => (c :: a) :: rest

/-- Model of joining segments with a separator (Rust `Vec::join`). -/
def joinChar (sep : Char) : List (List Char) → List Char
  | [] => []
  | a :: rest =>
    match rest with
    | [] => a
    | _ :: _ => a ++ sep :: joinChar sep rest

/-- `encode_uri` from `src/utils.rs`: split on `/`, percent-encode each
segment, rejoin with `/` (segment encoding modelled from the spec, see
`urlencode`). -/
def encode_uri (v : String) : String :=
  ⟨joinChar '/' ((splitAllChar '/' v.data).map urlencode)⟩

/-- Value of one hexadecimal digit byte, upper or lower case. -/
def hexValByte (b : Nat) : Option Nat :=
  if 48 ≤ b ∧ b ≤ 57 then some (b - 48)
  else if 65 ≤ b ∧ b ≤ 70 then some (b - 55)
  else if 97 ≤ b ∧ b ≤ 102 then some (b - 87)
  else none

/-- Modelled from the spec: `percent_encoding::percent_decode` (not under
`src/`) on a byte sequence: `%` followed by two hex digits becomes that
byte; a `%` not followed by two hex digits stays literal and decoding
continues with the bytes after the `%`. -/
def percentDecodeBytes : List Nat → List Nat
  | [] => []
  | b :: bs =>
    if b = 37 then
      match bs with
      | b1 :: b2 :: bs2 =>
        match hexValByte b1, hexValByte b2 with
        | some hi, some lo => (hi * 16 + lo) :: percentDecodeBytes bs2
        | _, _ => 37 :: percentDecodeBytes (b1 :: b2 :: bs2)
      | [b1] => 37 :: percentDecodeBytes [b1]
      | [] => [37]
    else b :: percentDecodeBytes bs
termination_by l => l.length
decreasing_by all_goals simp <;> omega

/-- `decode_uri` from `src/utils.rs`: percent-decode the string's UTF-8
bytes, then strict UTF-8 decoding; `none` is Rust's `None` from
`decode_utf8().ok()` (decoding modelled from the spec, see
`percentDecodeBytes` and `utf8Decode`). -/
def decode_uri (v : String) : Option String :=
  (utf8Decode (percentDecodeBytes (utf8Encode v.data))).map (fun l => ⟨l⟩)

/-! ### Support lemmas -/

theorem containsChar_cons (c x : Char) (l : List Char) :
    containsChar c (x :: l) = (decide (x = c) || containsChar c l) := by
  simp [containsChar]

theorem splitOnce_eq_none (sep : Char) (l : List Char)
    (h : containsChar sep l = false) : splitOnce sep l = none := by
  induction l with
  | nil => rfl
  | cons c cs ih =>
    rw [containsChar_cons] at h
    simp only [Bool.or_eq_false_iff, decide_eq_false_iff_not] at h
    simp [splitOnce, h.1, ih h.2]

theorem splitOnce_append (sep : Char) (l r : List Char)
    (h : containsChar sep l = false) :
    splitOnce sep (l ++ sep :: r) = some (l, r) := by
  induction l with
  | nil => simp [splitOnce]
  | cons c cs ih =>
    rw [containsChar_cons] at h
    simp only [Bool.or_eq_false_iff, decide_eq_false_iff_not] at h
    simp [splitOnce, h.1, ih h.2]

theorem containsChar_append (c : Char) (a b : List Char) :
    containsChar c (a ++ b) = (containsChar c a || containsChar c b) := by
  simp [containsChar]

theorem checkedSub_eq_ok (x y v : Nat) :
    checkedSub x y = Except.ok v ↔ y ≤ x ∧ v = x - y := by
  constructor
  · intro hv
    unfold checkedSub at hv
    split_ifs at hv with hxy
    · injection hv with hv
      exact ⟨hxy, hv.symm⟩
  · rintro ⟨hxy, rfl⟩
    unfold checkedSub
    rw [if_pos hxy]

/-! ### Claims about `parse_range` -/

/-- C2: the claim asserts `parse_range` has no panic path for any input,
`size == 0` included. The code evaluates `size - 1` after the
`offset <= size` guard, so the header `bytes=-0` with `size = 0` reaches
`0 - 1`: a `u64` underflow, i.e. an arithmetic-overflow panic in checked
builds (in release builds the value wraps to `2^64 - 1`, so the returned
end offset violates `end < size` instead). This theorem evaluates the
embedded code at that failing input. -/
theorem parse_range_underflow_panic :
    parse_range "bytes=-0" 0 = Except.error () := rfl

/-- C8: an inverted explicit range whose two offsets are both below the
resource size is returned as-is: `parse_range` checks `end < size` but
never compares `end` with `start`, so `bytes=100-50` against any
`size > 100` yields `Some((100, 50))`. -/
theorem parse_range_inverted (size : Nat) (h : 100 < size) :
    parse_range "bytes=100-50" size = Except.ok (some (100, 50)) := by
  show (if 100 < size then
          if (50 : Nat) < size then Except.ok (some (100, 50)) else Except.ok none
        else Except.ok none) = Except.ok (some (100, 50))
  rw [if_pos h, if_pos (by omega)]

/-- Witness for C8 at the concrete size 200. -/
theorem parse_range_inverted_w :
    parse_range "bytes=100-50" 200 = Except.ok (some (100, 50)) :=
  parse_range_inverted 200 (by decide)

/-- C9: both functions are deterministic pure functions of their
arguments: two calls with identical arguments give identical results, and
the embedding carries no state a result could depend on (the Rust source
reads no statics and performs no I/O in either function). -/
theorem parse_range_glob_deterministic :
    (∀ (r1 r2 : String) (s1 s2 : Nat), r1 = r2 → s1 = s2 →
       parse_range r1 s1 = parse_range r2 s2) ∧
    (∀ p1 p2 t1 t2 : String, p1 = p2 → t1 = t2 → glob p1 t1 = glob p2 t2) := by
  constructor
  · intro r1 r2 s1 s2 hr hs; rw [hr, hs]
  · intro p1 p2 t1 t2 hp ht; rw [hp, ht]

/-- Witness for C9 at concrete arguments. -/
theorem parse_range_glob_deterministic_w :
    parse_range "bytes=0-" 500 = parse_range "bytes=0-" 500 :=
  parse_range_glob_deterministic.1 "bytes=0-" "bytes=0-" 500 500 rfl rfl

/-- C5: `parse_range` rejects, with the same `None` and no distinguishable
error kind, every header without `=`, every header whose unit token (left
of the first `=`) is not exactly `bytes`, and every header whose range
spec (right of the first `=`) contains a comma. -/
theorem parse_range_reject_malformed :
    (∀ (h : String) (s : Nat), containsChar '=' h.data = false →
       parse_range h s = Except.ok none) ∧
    (∀ (h : String) (s : Nat) (u r : List Char),
       splitOnce '=' h.data = some (u, r) → u ≠ "bytes".data →
       parse_range h s = Except.ok none) ∧
    (∀ (h : String) (s : Nat) (u r : List Char),
       splitOnce '=' h.data = some (u, r) → containsChar ',' r = true →
       parse_range h s = Except.ok none) := by
  refine ⟨fun h s hc => ?_, fun h s u r hsplit hu => ?_, fun h s u r hsplit hr => ?_⟩
  · unfold parse_range parseRangeL
    rw [splitOnce_eq_none '=' h.data hc]
  · unfold parse_range parseRangeL
    rw [hsplit]
    exact if_pos (Or.inl hu)
  · unfold parse_range parseRangeL
    rw [hsplit]
    exact if_pos (Or.inr hr)

/-- Witness for C5: each rejection clause applied at a concrete input. -/
theorem parse_range_reject_malformed_w :
    parse_range "norange" 7 = Except.ok none ∧
    parse_range "octets=1-2" 7 = Except.ok none ∧
    parse_range "bytes=1-2,3-4" 7 = Except.ok none :=
  ⟨parse_range_reject_malformed.1 "norange" 7 (by decide),
   parse_range_reject_malformed.2.1 "octets=1-2" 7 "octets".data ("1-2").data
     rfl (by decide),
   parse_range_reject_malformed.2.2 "bytes=1-2,3-4" 7 "bytes".data
     ("1-2,3-4").data rfl (by decide)⟩

/-- C3 (amended): for the suffix form the right side is parsed as a
non-negative integer `L`; a parse failure gives `None`, `L > size` gives
`None`, and `L <= size` gives `Some((size - L, size - 1))` provided
`size > 0`. (At `size = 0` the only way to pass the `L <= size` check is
`L = 0`, and there `size - 1` underflows: see
`parse_range_suffix_zero_cex`.) -/
theorem parse_range_suffix_form (rest : String) (size : Nat)
    (hc : containsChar ',' rest.data = false) (hs : 0 < size) :
    parse_range ("bytes=-" ++ rest) size =
      match parseU64 rest.data with
      | none => Except.ok none
      | some L =>
        if L ≤ size then Except.ok (some (size - L, size - 1))
        else Except.ok none := by
  have hd : ("bytes=-" ++ rest).data = "bytes".data ++ '=' :: '-' :: rest.data := by
    rw [String.data_append]; rfl
  have hc2 : containsChar ',' ('-' :: rest.data) = false := by
    rw [containsChar_cons]; simpa using hc
  unfold parse_range parseRangeL
  rw [hd, splitOnce_append '=' "bytes".data ('-' :: rest.data) (by decide)]
  dsimp only
  rw [if_neg (by simp [hc2])]
  rw [show splitOnce '-' ('-' :: rest.data) = some ([], rest.data) from rfl]
  dsimp only
  rw [if_pos (show ([] : List Char) = [] from rfl)]
  cases hp : parseU64 rest.data with
  | none => rfl
  | some L =>
    dsimp only
    split_ifs with hL
    · rw [show checkedSub size L = Except.ok (size - L) from
        (checkedSub_eq_ok size L (size - L)).mpr ⟨hL, rfl⟩]
      rw [show checkedSub size 1 = Except.ok (size - 1) from
        (checkedSub_eq_ok size 1 (size - 1)).mpr ⟨by omega, rfl⟩]
    · rfl

/-- Witness for C3 at the repo's own test vector `bytes=-300`, size 500. -/
theorem parse_range_suffix_form_w :
    parse_range "bytes=-300" 500 = Except.ok (some (200, 499)) := by
  have := parse_range_suffix_form "300" 500 (by decide) (by decide)
  simpa using this

/-- C3 counterexample: with `L = 0 <= size = 0` the claim promises
`Some((size - L, size - 1))`, but the code underflows computing
`size - 1` and panics (checked builds) instead of returning a result. -/
theorem parse_range_suffix_zero_cex :
    parse_range "bytes=-0" 0 ≠ Except.ok (some (0, 0)) ∧
    parse_range "bytes=-0" 0 = Except.error () := by
  constructor
  · intro h; cases h
  · rfl

/-- C4: for the start-only and start-end forms the left side is parsed as
an integer `start` (`None` on parse failure or `start >= size`); an empty
right side yields `Some((start, size - 1))`, otherwise the right side is
parsed as an integer `end` (`None` on parse failure or `end >= size`) and
`Some((start, end))` is returned. -/
theorem parse_range_start_form (left right : String) (size : Nat)
    (hne : left.data ≠ [])
    (hdash : containsChar '-' left.data = false)
    (hc1 : containsChar ',' left.data = false)
    (hc2 : containsChar ',' right.data = false) :
    parse_range ("bytes=" ++ left ++ "-" ++ right) size =
      match parseU64 left.data with
      | none => Except.ok none
      | some start =>
        if start < size then
          if right.data = [] then Except.ok (some (start, size - 1))
          else
            match parseU64 right.data with
            | none => Except.ok none
            | some e =>
              if e < size then Except.ok (some (start, e)) else Except.ok none
        else Except.ok none := by
  have hd : ("bytes=" ++ left ++ "-" ++ right).data
      = "bytes".data ++ '=' :: (left.data ++ '-' :: right.data) := by
    simp [String.data_append]
  have hcs : containsChar ',' (left.data ++ '-' :: right.data) = false := by
    rw [containsChar_append, containsChar_cons]
    simp [hc1, hc2]
  unfold parse_range parseRangeL
  rw [hd, splitOnce_append '=' "bytes".data (left.data ++ '-' :: right.data)
    (by decide)]
  dsimp only
  rw [if_neg (by simp [hcs])]
  rw [splitOnce_append '-' left.data right.data hdash]
  dsimp only
  rw [if_neg hne]
  cases hp : parseU64 left.data with
  | none => rfl
  | some start =>
    dsimp only
    split_ifs with h1 h2
    · rw [show checkedSub size 1 = Except.ok (size - 1) from
        (checkedSub_eq_ok size 1 (size - 1)).mpr ⟨by omega, rfl⟩]
    · cases hq : parseU64 right.data with
      | none => simp [h2]
      | some e => simp [h2]
    · rfl

/-- Witness for C4 at the repo's own test vector `bytes=0-499`, size 500. -/
theorem parse_range_start_form_w :
    parse_range "bytes=0-499" 500 = Except.ok (some (0, 499)) := by
  have := parse_range_start_form "0" "499" 500 (by decide) (by decide)
    (by decide) (by decide)
  simpa using this

/-- C1 (amended): whenever `parse_range` returns `Some((start, end))`,
then `end < size` and `start <= size` hold. The claimed stronger
invariant `start <= end < size` fails: an inverted explicit range is
returned as-is, and the zero-length suffix form returns
`start = size = end + 1` (see `parse_range_invariant_cex`). -/
theorem parse_range_partial_invariant (h : String) (s a b : Nat)
    (hp : parse_range h s = Except.ok (some (a, b))) : b < s ∧ a ≤ s := by
  unfold parse_range parseRangeL at hp
  repeat' split at hp
  all_goals simp at hp
  all_goals try simp only [checkedSub_eq_ok] at *
  all_goals omega

/-- Witness for C1 at the repo's own test vector `bytes=0-499`, size 500. -/
theorem parse_range_partial_invariant_w : 499 < 500 ∧ 0 ≤ 500 :=
  parse_range_partial_invariant "bytes=0-499" 500 0 499 rfl

/-- C1 counterexample: the zero-length suffix request `bytes=-0` against
size 500 satisfies the parser's checks and returns `Some((500, 499))`,
violating both `start <= end` and `start < size` from the claimed
invariant `0 <= start <= end < size`. -/
theorem parse_range_invariant_cex :
    parse_range "bytes=-0" 500 = Except.ok (some (500, 499)) ∧
    ¬(500 ≤ 499) := by
  exact ⟨rfl, by omega⟩

/-! ### Claims about `glob` -/

theorem globMatch_no_wild :
    ∀ ps : List Char, (∀ c ∈ ps, c ≠ '*' ∧ c ≠ '?') →
      ∀ ts, (globMatch ps ts = true ↔ ts = ps) := by
  intro ps
  induction ps with
  | nil =>
    intro _ ts
    cases ts <;> simp [globMatch]
  | cons p ps ih =>
    intro hw ts
    have hp := hw p (List.mem_cons_self p ps)
    have ihs := ih (fun c hc => hw c (List.mem_cons_of_mem p hc))
    cases ts with
    | nil => simp [globMatch, hp.1]
    | cons t ts2 =>
      simp only [globMatch, if_neg hp.1, Bool.and_eq_true, Bool.or_eq_true,
        beq_iff_eq]
      constructor
      · rintro ⟨h1 | h1, hrec⟩
        · exact absurd h1 hp.2
        · rw [(ihs ts2).mp hrec, h1]
      · intro he
        injection he with he1 he2
        exact ⟨Or.inr he1.symm, (ihs ts2).mpr he2⟩

/-- C6: in the spec-modelled matcher every non-wildcard pattern character
is an ordinary literal with no classes or escapes, so a pattern free of
`*` and `?` matches exactly the target equal to it character for
character, length included. -/
theorem glob_no_wildcard_literal (p t : String)
    (hw : ∀ c ∈ p.data, c ≠ '*' ∧ c ≠ '?') :
    (glob p t = true ↔ t = p) := by
  unfold glob
  rw [globMatch_no_wild p.data hw t.data]
  exact ⟨fun h => String.ext h, fun h => by rw [h]⟩

/-- Witness for C6 on a wildcard-free pattern. -/
theorem glob_no_wildcard_literal_w : glob "abc" "abc" = true :=
  (glob_no_wildcard_literal "abc" "abc" (by decide)).mpr rfl

theorem starLoop_collapse (m : List Char → Bool) :
    ∀ ts, starLoop (fun l => starLoop m l) ts = starLoop m ts := by
  intro ts
  induction ts with
  | nil => rfl
  | cons t ts ih =>
    show (starLoop m (t :: ts) || starLoop (fun l => starLoop m l) ts)
      = starLoop m (t :: ts)
    rw [ih]
    show ((m (t :: ts) || starLoop m ts) || starLoop m ts)
      = (m (t :: ts) || starLoop m ts)
    rw [Bool.or_assoc, Bool.or_self]

theorem starLoop_le (m : List Char → Bool) :
    ∀ ts, starLoop m ts = true → ∃ l, l.length ≤ ts.length ∧ m l = true := by
  intro ts
  induction ts with
  | nil => intro h; exact ⟨[], Nat.le_refl 0, h⟩
  | cons t ts ih =>
    intro h
    rcases Bool.or_eq_true_iff.mp h with h1 | h2
    · exact ⟨t :: ts, Nat.le_refl _, h1⟩
    · obtain ⟨l, hl, hm⟩ := ih h2
      exact ⟨l, Nat.le_succ_of_le hl, hm⟩

theorem globMatch_min_length :
    ∀ ps ts, globMatch ps ts = true →
      (ps.filter (fun c => !(c == '*'))).length ≤ ts.length := by
  intro ps
  induction ps with
  | nil => intro ts _; simp
  | cons p ps ih =>
    intro ts h
    by_cases hp : p = '*'
    · subst hp
      simp only [globMatch, if_pos rfl] at h
      obtain ⟨l, hl, hm⟩ := starLoop_le (fun l => globMatch ps l) ts h
      have hrec := ih l hm
      have hfe : List.filter (fun c => !(c == '*')) ('*' :: ps)
          = List.filter (fun c => !(c == '*')) ps := by
        simp [List.filter_cons]
      rw [hfe]
      omega
    · cases ts with
      | nil => simp [globMatch, hp] at h
      | cons t ts2 =>
        simp only [globMatch, if_neg hp, Bool.and_eq_true] at h
        have hrec := ih ts2 h.2
        have hfe : List.filter (fun c => !(c == '*')) (p :: ps)
            = p :: List.filter (fun c => !(c == '*')) ps := by
          simp [List.filter_cons, hp]
        rw [hfe]
        simp only [List.length_cons]
        omega

/-- C7: the matcher's empty and `*` edge cases: the empty pattern matches
only the empty target; the pattern `*` matches every target, the empty
one included; adjacent `*` tokens match exactly what a single `*`
matches; and each non-`*` pattern position (`?` or literal) consumes one
target character, so a pattern fails against any target shorter than its
number of non-`*` positions. -/
theorem glob_star_empty_props :
    (∀ t : String, glob "" t = true ↔ t = "") ∧
    (∀ t : String, glob "*" t = true) ∧
    (∀ ps ts : List Char, globMatch ('*' :: '*' :: ps) ts = globMatch ('*' :: ps) ts) ∧
    (∀ p t : String,
       t.data.length < (p.data.filter (fun c => !(c == '*'))).length →
       glob p t = false) := by
  have hstar : ∀ ts, globMatch ['*'] ts = true := by
    intro ts
    induction ts with
    | nil => rfl
    | cons t ts ih =>
      have ih2 : starLoop (fun l => globMatch [] l) ts = true := ih
      show (false || starLoop (fun l => globMatch [] l) ts) = true
      rw [Bool.false_or]
      exact ih2
  refine ⟨fun t => ?_, fun t => hstar t.data, fun ps ts => ?_, fun p t hlen => ?_⟩
  · show (globMatch [] t.data = true) ↔ t = ""
    rw [show globMatch [] t.data = t.data.isEmpty from rfl, List.isEmpty_iff]
    constructor
    · intro h; exact String.ext h
    · intro h; rw [h]
  · show starLoop (fun l => globMatch ('*' :: ps) l) ts
      = starLoop (fun l => globMatch ps l) ts
    calc starLoop (fun l => globMatch ('*' :: ps) l) ts
        = starLoop (fun l => starLoop (fun l2 => globMatch ps l2) l) ts := rfl
      _ = starLoop (fun l2 => globMatch ps l2) ts :=
          starLoop_collapse (fun l2 => globMatch ps l2) ts
  · by_contra hg
    have hg2 : glob p t = true := by
      cases hgb : glob p t
      · exact absurd hgb hg
      · rfl
    have := globMatch_min_length p.data t.data hg2
    omega

/-- Witness for C7: part 4 applied at `??` against `a` (too short), and
part 2 applied at the empty target. -/
theorem glob_star_empty_props_w :
    glob "??" "a" = false ∧ glob "*" "" = true :=
  ⟨glob_star_empty_props.2.2.2 "??" "a" (by decide),
   glob_star_empty_props.2.1 ""⟩

/-! ### The `encode_uri` / `decode_uri` round trip -/

theorem char_toNat_ofNat (n : Nat) (hv : Nat.isValidChar n) :
    (Char.ofNat n).toNat = n := by
  unfold Char.ofNat
  rw [dif_pos hv]
  unfold Char.ofNatAux Char.toNat
  simp [UInt32.toNat]

theorem char_valid_ranges (c : Char) :
    c.toNat < 0xD800 ∨ (0xE000 ≤ c.toNat ∧ c.toNat < 0x110000) := c.valid

theorem utf8EncodeChar_one (c : Char) (h : c.toNat < 0x80) :
    utf8EncodeChar c = [c.toNat] := by
  unfold utf8EncodeChar
  rw [if_pos h]

theorem utf8EncodeChar_two (c : Char) (h1 : 0x80 ≤ c.toNat)
    (h2 : c.toNat < 0x800) :
    utf8EncodeChar c = [0xC0 + c.toNat / 0x40, 0x80 + c.toNat % 0x40] := by
  unfold utf8EncodeChar
  rw [if_neg (by omega), if_pos h2]

theorem utf8EncodeChar_three (c : Char) (h1 : 0x800 ≤ c.toNat)
    (h2 : c.toNat < 0x10000) :
    utf8EncodeChar c = [0xE0 + c.toNat / 0x1000, 0x80 + (c.toNat / 0x40) % 0x40,
      0x80 + c.toNat % 0x40] := by
  unfold utf8EncodeChar
  rw [if_neg (by omega), if_neg (by omega), if_pos h2]

theorem utf8EncodeChar_four (c : Char) (h1 : 0x10000 ≤ c.toNat) :
    utf8EncodeChar c = [0xF0 + c.toNat / 0x40000, 0x80 + (c.toNat / 0x1000) % 0x40,
      0x80 + (c.toNat / 0x40) % 0x40, 0x80 + c.toNat % 0x40] := by
  unfold utf8EncodeChar
  rw [if_neg (by omega), if_neg (by omega), if_neg (by omega)]

theorem utf8Decode_nil : utf8Decode [] = some [] := by rw [utf8Decode]

theorem utf8Decode_cons_some (b0 : Nat) (bs : List Nat) (c : Char) (bs2 : List Nat)
    (h : utf8DecodeOne b0 bs = some (c, bs2)) :
    utf8Decode (b0 :: bs) = (utf8Decode bs2).map (fun cs => c :: cs) := by
  conv_lhs => rw [utf8Decode]
  split
  next c2 bs3 heq =>
    rw [h] at heq
    injection heq with heq
    injection heq with heq1 heq2
    rw [heq1, heq2]
  next heq => rw [h] at heq; cases heq

theorem utf8DecodeOne_one (b0 : Nat) (bs : List Nat) (h : b0 < 0x80) :
    utf8DecodeOne b0 bs = some (Char.ofNat b0, bs) := by
  unfold utf8DecodeOne
  rw [if_pos h]

theorem utf8DecodeOne_two (b0 b1 : Nat) (bs : List Nat)
    (h0 : 0xC2 ≤ b0 ∧ b0 ≤ 0xDF) (h1 : isCont b1) :
    utf8DecodeOne b0 (b1 :: bs) = some (Char.ofNat (utf8Val2 b0 b1), bs) := by
  unfold utf8DecodeOne
  rw [if_neg (by omega), if_pos h0]
  dsimp only
  rw [if_pos h1]

theorem utf8DecodeOne_three (b0 b1 b2 : Nat) (bs : List Nat)
    (h0 : 0xE0 ≤ b0 ∧ b0 ≤ 0xEF)
    (hc : isCont b1 ∧ isCont b2 ∧ 0x800 ≤ utf8Val3 b0 b1 b2 ∧
      ¬isSurrogate (utf8Val3 b0 b1 b2)) :
    utf8DecodeOne b0 (b1 :: b2 :: bs) = some (Char.ofNat (utf8Val3 b0 b1 b2), bs) := by
  unfold utf8DecodeOne
  rw [if_neg (by omega), if_neg (by omega), if_pos h0]
  dsimp only
  rw [if_pos hc]

theorem utf8DecodeOne_four (b0 b1 b2 b3 : Nat) (bs : List Nat)
    (h0 : 0xF0 ≤ b0 ∧ b0 ≤ 0xF4)
    (hc : isCont b1 ∧ isCont b2 ∧ isCont b3 ∧
      0x10000 ≤ utf8Val4 b0 b1 b2 b3 ∧ utf8Val4 b0 b1 b2 b3 ≤ 0x10FFFF) :
    utf8DecodeOne b0 (b1 :: b2 :: b3 :: bs)
      = some (Char.ofNat (utf8Val4 b0 b1 b2 b3), bs) := by
  unfold utf8DecodeOne
  rw [if_neg (by omega), if_neg (by omega), if_neg (by omega), if_pos h0]
  dsimp only
  rw [if_pos hc]

theorem utf8DecodeChar_append (c : Char) (rest : List Nat) :
    utf8Decode (utf8EncodeChar c ++ rest)
      = (utf8Decode rest).map (fun cs => c :: cs) := by
  have hv := char_valid_ranges c
  by_cases h1 : c.toNat < 0x80
  · rw [utf8EncodeChar_one c h1]
    simp only [List.cons_append, List.nil_append]
    rw [utf8Decode_cons_some _ _ _ _ (utf8DecodeOne_one c.toNat rest h1),
      Char.ofNat_toNat]
  · by_cases h2 : c.toNat < 0x800
    · rw [utf8EncodeChar_two c (by omega) h2]
      simp only [List.cons_append, List.nil_append]
      rw [utf8Decode_cons_some _ _ _ _
        (utf8DecodeOne_two _ _ _ (by omega) ⟨by omega, by omega⟩)]
      rw [show utf8Val2 (0xC0 + c.toNat / 0x40) (0x80 + c.toNat % 0x40)
          = c.toNat from by unfold utf8Val2; omega]
      rw [Char.ofNat_toNat]
    · by_cases h3 : c.toNat < 0x10000
      · rw [utf8EncodeChar_three c (by omega) h3]
        simp only [List.cons_append, List.nil_append]
        have hval : utf8Val3 (0xE0 + c.toNat / 0x1000)
            (0x80 + (c.toNat / 0x40) % 0x40) (0x80 + c.toNat % 0x40) = c.toNat := by
          unfold utf8Val3; omega
        rw [utf8Decode_cons_some _ _ _ _
          (utf8DecodeOne_three _ _ _ _ (by omega)
            ⟨⟨by omega, by omega⟩, ⟨by omega, by omega⟩, by rw [hval]; omega,
             by rw [hval]
                intro hs
                unfold isSurrogate at hs
                rcases hv with hv | hv <;> omega⟩)]
        rw [hval, Char.ofNat_toNat]
      · have h4 : c.toNat < 0x110000 := by rcases hv with hv | hv <;> omega
        rw [utf8EncodeChar_four c (by omega)]
        simp only [List.cons_append, List.nil_append]
        have hval : utf8Val4 (0xF0 + c.toNat / 0x40000)
            (0x80 + (c.toNat / 0x1000) % 0x40) (0x80 + (c.toNat / 0x40) % 0x40)
            (0x80 + c.toNat % 0x40) = c.toNat := by
          unfold utf8Val4; omega
        rw [utf8Decode_cons_some _ _ _ _
          (utf8DecodeOne_four _ _ _ _ _ (by omega)
            ⟨⟨by omega, by omega⟩, ⟨by omega, by omega⟩, ⟨by omega, by omega⟩,
             by rw [hval]; omega, by rw [hval]; omega⟩)]
        rw [hval, Char.ofNat_toNat]

theorem utf8Decode_encode : ∀ l : List Char, utf8Decode (utf8Encode l) = some l := by
  intro l
  induction l with
  | nil => exact utf8Decode_nil
  | cons c cs ih =>
    show utf8Decode (utf8EncodeChar c ++ utf8Encode cs) = some (c :: cs)
    rw [utf8DecodeChar_append, ih]
    rfl

theorem utf8Encode_lt : ∀ l : List Char, ∀ b ∈ utf8Encode l, b < 0x100 := by
  intro l
  induction l with
  | nil => intro b hb; simp [utf8Encode] at hb
  | cons c cs ih =>
    intro b hb
    have hb2 : b ∈ utf8EncodeChar c ++ utf8Encode cs := hb
    rcases List.mem_append.mp hb2 with h | h
    · have hv := char_valid_ranges c
      have h4 : c.toNat < 0x110000 := by rcases hv with hv | hv <;> omega
      revert h
      unfold utf8EncodeChar
      split_ifs with g1 g2 g3 <;> intro h <;> simp only [List.mem_cons,
        List.mem_singleton, List.not_mem_nil, or_false] at h
      · omega
      · rcases h with h | h <;> omega
      · rcases h with h | h | h <;> omega
      · rcases h with h | h | h | h <;> omega
    · exact ih b h

theorem utf8Encode_append (x y : List Char) :
    utf8Encode (x ++ y) = utf8Encode x ++ utf8Encode y := by
  induction x with
  | nil => rfl
  | cons c cs ih =>
    show utf8EncodeChar c ++ utf8Encode (cs ++ y)
      = (utf8EncodeChar c ++ utf8Encode cs) ++ utf8Encode y
    rw [ih, List.append_assoc]

theorem utf8Encode_ascii (l : List Char) (h : ∀ c ∈ l, c.toNat < 0x80) :
    utf8Encode l = l.map Char.toNat := by
  induction l with
  | nil => rfl
  | cons c cs ih =>
    show utf8EncodeChar c ++ utf8Encode cs = c.toNat :: cs.map Char.toNat
    rw [utf8EncodeChar_one c (h c (List.mem_cons_self c cs)),
      ih (fun x hx => h x (List.mem_cons_of_mem c hx))]
    rfl

theorem isUnreservedByte_lt (b : Nat) (h : isUnreservedByte b = true) :
    b < 0x80 ∧ b ≠ 37 := by
  unfold isUnreservedByte at h
  rw [decide_eq_true_eq] at h
  rcases h with h | h | h | h | h | h | h <;> omega

theorem hexUpper_toNat (d : Nat) (h : d < 16) :
    (hexUpper d).toNat = if d < 10 then 48 + d else 55 + d := by
  unfold hexUpper
  split_ifs with h10
  · rw [char_toNat_ofNat _ (Or.inl (by omega))]
  · rw [char_toNat_ofNat _ (Or.inl (by omega))]

theorem hexValByte_hexUpper (d : Nat) (h : d < 16) :
    hexValByte ((hexUpper d).toNat) = some d := by
  by_cases h10 : d < 10
  · rw [hexUpper_toNat d h, if_pos h10]
    unfold hexValByte
    rw [if_pos (by omega)]
    congr 1
    omega
  · rw [hexUpper_toNat d h, if_neg h10]
    unfold hexValByte
    rw [if_neg (by omega), if_pos (by omega)]
    congr 1
    omega

theorem percentDecodeBytes_nil : percentDecodeBytes [] = [] := by
  rw [percentDecodeBytes]

theorem percentDecodeBytes_cons_other (b : Nat) (bs : List Nat) (h : b ≠ 37) :
    percentDecodeBytes (b :: bs) = b :: percentDecodeBytes bs := by
  conv_lhs => rw [percentDecodeBytes.eq_def]
  dsimp only
  rw [if_neg h]

theorem percentDecodeBytes_escape (b1 b2 v1 v2 : Nat) (bs : List Nat)
    (h1 : hexValByte b1 = some v1) (h2 : hexValByte b2 = some v2) :
    percentDecodeBytes (37 :: b1 :: b2 :: bs)
      = (v1 * 16 + v2) :: percentDecodeBytes bs := by
  conv_lhs => rw [percentDecodeBytes.eq_def]
  dsimp only
  rw [if_pos rfl]
  rw [h1, h2]

theorem percentDecode_encode (bs : List Nat) (hb : ∀ b ∈ bs, b < 0x100)
    (rest : List Nat) :
    percentDecodeBytes ((percentEncodeBytes bs).map Char.toNat ++ rest)
      = bs ++ percentDecodeBytes rest := by
  induction bs with
  | nil => simp [percentEncodeBytes]
  | cons b bs ih =>
    have hb0 : b < 0x100 := hb b (List.mem_cons_self b bs)
    have ihs := ih (fun x hx => hb x (List.mem_cons_of_mem b hx))
    show percentDecodeBytes
        (((if isUnreservedByte b then [Char.ofNat b]
           else ['%', hexUpper (b / 16), hexUpper (b % 16)])
          ++ percentEncodeBytes bs).map Char.toNat ++ rest)
      = (b :: bs) ++ percentDecodeBytes rest
    by_cases hu : isUnreservedByte b
    · rw [if_pos hu]
      have hr := isUnreservedByte_lt b hu
      simp only [List.singleton_append, List.map_cons, List.cons_append,
        List.nil_append]
      rw [char_toNat_ofNat b (Or.inl (by omega))]
      rw [percentDecodeBytes_cons_other b _ hr.2, ihs]
    · rw [if_neg hu]
      simp only [List.cons_append, List.nil_append, List.map_cons]
      rw [show ('%' : Char).toNat = 37 from rfl]
      rw [percentDecodeBytes_escape _ _ _ _ _
        (hexValByte_hexUpper (b / 16) (by omega))
        (hexValByte_hexUpper (b % 16) (by omega))]
      rw [show b / 16 * 16 + b % 16 = b from by omega, ihs]

theorem splitAllChar_ne_nil (sep : Char) (l : List Char) :
    splitAllChar sep l ≠ [] := by
  cases l with
  | nil => simp [splitAllChar]
  | cons c cs =>
    unfold splitAllChar
    split_ifs
    · simp
    · split <;> simp

theorem joinChar_splitAll (sep : Char) (l : List Char) :
    joinChar sep (splitAllChar sep l) = l := by
  induction l with
  | nil => rfl
  | cons c cs ih =>
    obtain ⟨a, r, he⟩ : ∃ a r, splitAllChar sep cs = a :: r := by
      cases h : splitAllChar sep cs with
      | nil => exact absurd h (splitAllChar_ne_nil sep cs)
      | cons a r => exact ⟨a, r, rfl⟩
    by_cases hc : c = sep
    · simp only [splitAllChar, if_pos hc]
      rw [he]
      show [] ++ sep :: joinChar sep (a :: r) = c :: cs
      rw [← he, ih, hc]
      rfl
    · simp only [splitAllChar, if_neg hc]
      rw [he]
      dsimp only
      cases r with
      | nil =>
        have ha : a = cs := by rw [he] at ih; exact ih
        show c :: a = c :: cs
        rw [ha]
      | cons b r2 =>
        have ha : a ++ sep :: joinChar sep (b :: r2) = cs := by
          rw [he] at ih; exact ih
        show (c :: a) ++ sep :: joinChar sep (b :: r2) = c :: cs
        rw [← ha]
        rfl

theorem percentEncodeBytes_ascii (bs : List Nat) (hb : ∀ b ∈ bs, b < 0x100) :
    ∀ c ∈ percentEncodeBytes bs, c.toNat < 0x80 := by
  induction bs with
  | nil => intro c hc; simp [percentEncodeBytes] at hc
  | cons b bs ih =>
    intro c hc
    have hb0 : b < 0x100 := hb b (List.mem_cons_self b bs)
    have hc2 : c ∈ (if isUnreservedByte b then [Char.ofNat b]
        else ['%', hexUpper (b / 16), hexUpper (b % 16)]) ++ percentEncodeBytes bs := hc
    rcases List.mem_append.mp hc2 with h | h
    · by_cases hu : isUnreservedByte b
      · rw [if_pos hu] at h
        have hr := isUnreservedByte_lt b hu
        simp only [List.mem_singleton] at h
        subst h
        rw [char_toNat_ofNat b (Or.inl (by omega))]
        omega
      · rw [if_neg hu] at h
        simp only [List.mem_cons, List.not_mem_nil, or_false] at h
        rcases h with h | h | h <;> subst h
        · show ('%' : Char).toNat < 0x80
          decide
        · rw [hexUpper_toNat _ (by omega)]
          split_ifs <;> omega
        · rw [hexUpper_toNat _ (by omega)]
          split_ifs <;> omega
    · exact ih (fun x hx => hb x (List.mem_cons_of_mem b hx)) c h

theorem joinChar_urlencode_ascii (segs : List (List Char)) :
    ∀ c ∈ joinChar '/' (segs.map urlencode), c.toNat < 0x80 := by
  induction segs with
  | nil => intro c hc; simp [joinChar] at hc
  | cons a segs ih =>
    cases segs with
    | nil =>
      intro c hc
      exact percentEncodeBytes_ascii _ (utf8Encode_lt a) c hc
    | cons b segs2 =>
      intro c hc
      have hc2 : c ∈ urlencode a ++ '/' :: joinChar '/' ((b :: segs2).map urlencode) := hc
      rcases List.mem_append.mp hc2 with h | h
      · exact percentEncodeBytes_ascii _ (utf8Encode_lt a) c h
      · rcases List.mem_cons.mp h with h | h
        · subst h
          decide
        · exact ih c h

theorem percentDecode_join : ∀ segs : List (List Char),
    percentDecodeBytes ((joinChar '/' (segs.map urlencode)).map Char.toNat)
      = utf8Encode (joinChar '/' segs) := by
  intro segs
  induction segs with
  | nil =>
    show percentDecodeBytes [] = utf8Encode []
    rw [percentDecodeBytes_nil]
    rfl
  | cons a segs ih =>
    cases segs with
    | nil =>
      show percentDecodeBytes ((urlencode a).map Char.toNat) = utf8Encode a
      rw [show (urlencode a : List Char) = percentEncodeBytes (utf8Encode a)
        from rfl]
      have := percentDecode_encode (utf8Encode a) (utf8Encode_lt a) []
      rw [List.append_nil] at this
      rw [this, percentDecodeBytes_nil, List.append_nil]
    | cons b segs2 =>
      show percentDecodeBytes
          ((urlencode a ++ '/' :: joinChar '/' ((b :: segs2).map urlencode)).map
            Char.toNat)
        = utf8Encode (a ++ '/' :: joinChar '/' (b :: segs2))
      rw [List.map_append, List.map_cons]
      rw [show ('/' : Char).toNat = 47 from rfl]
      rw [show (urlencode a : List Char) = percentEncodeBytes (utf8Encode a)
        from rfl]
      rw [percentDecode_encode (utf8Encode a) (utf8Encode_lt a) _]
      rw [percentDecodeBytes_cons_other 47 _ (by omega)]
      rw [ih]
      rw [utf8Encode_append]
      rw [show utf8Encode ('/' :: joinChar '/' (b :: segs2))
          = [47] ++ utf8Encode (joinChar '/' (b :: segs2)) from rfl]
      rfl

/-- C10: for every string `s`, `decode_uri (encode_uri s) = Some s`:
percent-encoding a path segment-by-segment (splitting on `/`, encoding
each segment's UTF-8 bytes, rejoining with `/`) and percent-decoding the
result recovers the original string exactly. -/
theorem encode_decode_roundtrip (s : String) :
    decode_uri (encode_uri s) = some s := by
  show (utf8Decode (percentDecodeBytes (utf8Encode
      (joinChar '/' ((splitAllChar '/' s.data).map urlencode))))).map
      (fun l => (⟨l⟩ : String)) = some s
  rw [utf8Encode_ascii _ (joinChar_urlencode_ascii (splitAllChar '/' s.data))]
  rw [percentDecode_join (splitAllChar '/' s.data)]
  rw [joinChar_splitAll '/' s.data]
  rw [utf8Decode_encode s.data]
  rfl

end Dufs
